import Mathlib

/-!
Shallow embedding of the `gram-schmidt` Rust crate (`src/lib.rs`).

The crate defines a `Vector` trait over fixed-dimension `[f64; N]` value
types (instantiated at N = 3 and N = 4 by the `vector!` macro), with
componentwise arithmetic, dot product, Euclidean length, normalization,
and an in-place modified Gram-Schmidt pass `gram_schmidt(&mut Vec<Self>)`.

Modelling choices:
* `f64` scalars are modelled as real numbers `ℝ`; `f64::sqrt` as `Real.sqrt`.
* a vector `[f64; N]` is a function `Fin n → ℝ`.
* the in-place algorithm threads its buffer as a `List (Vec n)` state;
  writing slot `i` is `List.set`.
* the unconditional `basis[0]` access panics on an empty vector in Rust;
  the embedded `gram_schmidt` therefore returns `Option`, with `none`
  modelling the panic.
-/

namespace GS

noncomputable section

/-- A fixed-dimension vector `[f64; N]`, with `f64` modelled as `ℝ`. -/
abbrev Vec (n : ℕ) := Fin n → ℝ

/-- `Vector4::new(components)` / `Vector3::new(components)`: construct a
vector from a literal component array (given here as a list; indices past
the end default to `0`, which never happens for well-formed literals). -/
def new {n : ℕ} (cs : List ℝ) : Vec n := fun i => cs.getD i 0

/-- `Vector::empty()`: the all-zero vector, the fold identity for `Sum`. -/
def empty (n : ℕ) : Vec n := fun _ => 0

/-- `impl Add`: componentwise addition. -/
def add {n : ℕ} (a b : Vec n) : Vec n := fun i => a i + b i

/-- `impl Sub`: componentwise subtraction. -/
def sub {n : ℕ} (a b : Vec n) : Vec n := fun i => a i - b i

/-- `impl Mul<f64>`: componentwise scalar multiplication. -/
def mulScalar {n : ℕ} (a : Vec n) (k : ℝ) : Vec n := fun i => a i * k

/-- `impl Div<f64>`: componentwise scalar division. -/
def divScalar {n : ℕ} (a : Vec n) (k : ℝ) : Vec n := fun i => a i / k

/-- `Vector::scale(self, lambda)`: `self * lambda`. -/
def scale {n : ℕ} (v : Vec n) (lambda : ℝ) : Vec n := mulScalar v lambda

/-- `Vector::dot_product(v1, v2)`: `sum += v1[i] * v2[i]` for `i` in
`0..DIM`, accumulated left-to-right from `0.0`. -/
def dot_product {n : ℕ} (v1 v2 : Vec n) : ℝ :=
  (List.finRange n).foldl (fun sum i => sum + v1 i * v2 i) 0

/-- `Vector::scale_with_dot_prod(&mut self, v2)`: the loop
`self[i] = self[i] * self[i] * v2[i]` for `i` in `0..DIM`, mutating
`self` in index order. -/
def scale_with_dot_prod {n : ℕ} (a b : Vec n) : Vec n :=
  (List.finRange n).foldl (fun s i => Function.update s i (s i * s i * b i)) a

/-- `Vector::length(&self)`: `sqrt(dot_product(self, self))`. -/
def length {n : ℕ} (v : Vec n) : ℝ := Real.sqrt (dot_product v v)

/-- `Vector::normalize(&mut self)`: compute `len = self.length()` once,
then divide every component by `len`. -/
def normalize {n : ℕ} (v : Vec n) : Vec n := divScalar v (length v)

/-- `impl Sum`: `iter.fold(Self::empty(), |a, b| a + b)`, a strict
left-to-right fold with `add` starting from the zero vector. -/
def sumv {n : ℕ} (l : List (Vec n)) : Vec n := l.foldl add (empty n)

/-- One iteration of the `for index in 1..basis.len()` loop of
`Vector::gram_schmidt`: `first_half = basis[0..index]` is the processed
prefix, `a = basis[index]` the slot being orthonormalized;
`sum = first_half.iter().cloned().map(|b| b.scale(dot_product(a, b))).sum()`;
`c = a - sum` is normalized and written back into slot `index`. -/
def gs_step {n : ℕ} (state : List (Vec n)) (index : ℕ) : List (Vec n) :=
  let a := state.getD index (empty n)
  let first_half := state.take index
  let s := sumv (first_half.map (fun b => scale b (dot_product a b)))
  state.set index (normalize (sub a s))

/-- The state of the buffer after the initial `basis[0].normalize()`
(empty buffers are handled by `gram_schmidt` itself). -/
def gs_init {n : ℕ} (basis : List (Vec n)) : List (Vec n) :=
  match basis with
  | [] => []
  | v :: rest => normalize v :: rest

/-- The buffer after the loop of `Vector::gram_schmidt` has processed
indices `1, 2, ..., k`. -/
def gs_iter {n : ℕ} (basis : List (Vec n)) : ℕ → List (Vec n)
  | 0 => gs_init basis
  | k + 1 => gs_step (gs_iter basis k) (k + 1)

/-- `Vector::gram_schmidt(basis: &mut Vec<Self>)`: normalize `basis[0]`
in place, then run the loop over indices `1..basis.len()`. The
unconditional `basis[0]` access panics when the buffer is empty, which is
modelled by `none`. -/
def gram_schmidt {n : ℕ} (basis : List (Vec n)) : Option (List (Vec n)) :=
  match basis with
  | [] => none
  | _ => some (gs_iter basis (basis.length - 1))

/-- The first `k + 1` Gram-Schmidt outputs, written as the per-index
recurrence computed by the loop body: entry `0` is `normalize basis[0]`,
and entry `k + 1` is `normalize (basis[k+1] - sum)` where `sum` folds the
projection terms `b.scale(dot_product(basis[k+1], b))` left-to-right over
the previously produced outputs `b`. -/
def specList {n : ℕ} (basis : List (Vec n)) : ℕ → List (Vec n)
  | 0 => [normalize (basis.getD 0 (empty n))]
  | k + 1 =>
      specList basis k ++
        [normalize (sub (basis.getD (k + 1) (empty n))
          (sumv ((specList basis k).map
            (fun b => scale b (dot_product (basis.getD (k + 1) (empty n)) b)))))]

/-- Modelled from the spec: the first `k + 1` outputs of the pure
recurrence of section 4.2, with the projection coefficient written in the
spec's argument order `dot_product(output[j], basis[i])` (the consuming
calling convention itself exists only in the repository's history, not
under `src/`). -/
def specPure {n : ℕ} (basis : List (Vec n)) : ℕ → List (Vec n)
  | 0 => [normalize (basis.getD 0 (empty n))]
  | k + 1 =>
      specPure basis k ++
        [normalize (sub (basis.getD (k + 1) (empty n))
          (sumv ((specPure basis k).map
            (fun b => scale b (dot_product b (basis.getD (k + 1) (empty n)))))))]

/-- Modelled from the spec: the consuming/pure form of `gram_schmidt`
(present only in the repository's history, not under `src/`): it returns
a newly allocated sequence following the recurrence
`output[0] = normalize basis[0]`,
`output[i] = normalize (basis[i] - Σ_j dot_product(output[j], basis[i]) · output[j])`,
and maps an empty input to an empty output. -/
def gram_schmidt_pure {n : ℕ} (basis : List (Vec n)) : List (Vec n) :=
  match basis with
  | [] => []
  | _ => specPure basis (basis.length - 1)

/-- Concrete two-vector basis in dimension 2 used by witnesses. -/
def wB : List (Vec 2) := [new [1, 0], new [0, 1]]

/-- Concrete one-vector basis in dimension 1 used by witnesses. -/
def wS : List (Vec 1) := [new [2]]

/-- Concrete two-vector basis in dimension 3 used by witnesses. -/
def wB3 : List (Vec 3) := [new [1, 0, 0], new [0, 1, 0]]

/-- Extension of `wB3` by a third vector, used by witnesses. -/
def wB3x : List (Vec 3) := [new [1, 0, 0], new [0, 1, 0], new [0, 0, 1]]

/-- Input vector 0 of the repository's `basic_test`. -/
def t0 : Vec 4 := new [1, 1, 1, 1]

/-- Input vector 1 of the repository's `basic_test`. -/
def t1 : Vec 4 := new [0, 1, 0, 1]

/-- Input vector 2 of the repository's `basic_test`. -/
def t2 : Vec 4 := new [0, 0, 1, 1]

/-- Input vector 3 of the repository's `basic_test`. -/
def t3 : Vec 4 := new [0, 0, 0, 1]

/-- Expected output vector 0 of the repository's `basic_test`. -/
def u0 : Vec 4 := new [0.5, 0.5, 0.5, 0.5]

/-- Expected output vector 1 of the repository's `basic_test`. -/
def u1 : Vec 4 := new [-0.5, 0.5, -0.5, 0.5]

/-- Expected output vector 2 of the repository's `basic_test`. -/
def u2 : Vec 4 := new [-0.5, -0.5, 0.5, 0.5]

/-- Expected output vector 3 of the repository's `basic_test`. -/
def u3 : Vec 4 := new [0.5, -0.5, -0.5, 0.5]

/-- The `k`-th Gram-Schmidt output vector (entry `k` of the recurrence
outputs, which is stable once produced). -/
def gsOut {n : ℕ} (basis : List (Vec n)) (k : ℕ) : Vec n :=
  (specList basis k).getD k (empty n)

theorem specList_length {n : ℕ} (basis : List (Vec n)) (k : ℕ) :
    (specList basis k).length = k + 1 := by
  induction k with
  | zero => rfl
  | succ k ih => simp only [specList, List.length_append, ih, List.length_singleton]

theorem specList_getD_mono {n : ℕ} (basis : List (Vec n)) {j k k' : ℕ}
    (hjk : j ≤ k) (hkk : k ≤ k') (d : Vec n) :
    (specList basis k').getD j d = (specList basis k).getD j d := by
  induction k' with
  | zero =>
      have h0 : k = 0 := Nat.le_zero.mp hkk
      subst h0; rfl
  | succ k' ih =>
      rcases Nat.eq_or_lt_of_le hkk with h | h
      · subst h; rfl
      · have hk : k ≤ k' := Nat.lt_succ_iff.mp h
        simp only [specList]
        rw [List.getD_append _ _ d j (by rw [specList_length]; omega)]
        exact ih hk

/-- Invariant of the in-place loop: after processing indices `1, ..., k`,
slots `0..k` hold the final outputs of the recurrence and slots
`k+1..L-1` still hold the original input vectors. -/
theorem gs_iter_eq {n : ℕ} (basis : List (Vec n)) (hne : basis ≠ []) :
    ∀ k, k < basis.length →
      gs_iter basis k = specList basis k ++ basis.drop (k + 1) := by
  intro k
  induction k with
  | zero =>
      intro _
      match basis, hne with
      | v :: rest, _ => rfl
  | succ k ih =>
      intro hk
      have hk' : k < basis.length := Nat.lt_of_succ_lt hk
      have hstate := ih hk'
      show gs_step (gs_iter basis k) (k + 1) = _
      rw [hstate]
      unfold gs_step
      have hlenP : (specList basis k).length = k + 1 := specList_length basis k
      have ha : (specList basis k ++ basis.drop (k + 1)).getD (k + 1) (empty n)
          = basis.getD (k + 1) (empty n) := by
        rw [List.getD_append_right _ _ _ _ (by omega), hlenP]
        simp only [Nat.sub_self]
        rw [List.drop_eq_getElem_cons hk, List.getD_cons_zero,
          List.getD_eq_getElem basis (empty n) hk]
      have htake : (specList basis k ++ basis.drop (k + 1)).take (k + 1)
          = specList basis k := List.take_left' hlenP
      have hset : ∀ c : Vec n, (specList basis k ++ basis.drop (k + 1)).set (k + 1) c
          = specList basis k ++ (c :: basis.drop (k + 2)) := by
        intro c
        rw [List.set_append_right _ _ (by omega), hlenP]
        simp only [Nat.sub_self]
        rw [List.drop_eq_getElem_cons hk, List.set_cons_zero]
      rw [ha, htake, hset]
      simp only [specList, List.append_assoc, List.singleton_append]

/-- On a non-empty buffer, `gram_schmidt` succeeds and returns exactly the
recurrence outputs. -/
theorem gram_schmidt_eq_specList {n : ℕ} (basis : List (Vec n)) (hne : basis ≠ []) :
    gram_schmidt basis = some (specList basis (basis.length - 1)) := by
  have hL : 0 < basis.length := List.length_pos.mpr hne
  have h := gs_iter_eq basis hne (basis.length - 1) (by omega)
  have hdrop : basis.drop (basis.length - 1 + 1) = [] := by
    apply List.drop_eq_nil_of_le; omega
  match basis, hne with
  | v :: rest, _ =>
      show some (gs_iter (v :: rest) ((v :: rest).length - 1)) = _
      rw [h, hdrop, List.append_nil]

theorem foldl_add_eq {α : Type*} (f : α → ℝ) :
    ∀ (l : List α) (c : ℝ), l.foldl (fun s i => s + f i) c = c + (l.map f).sum
  | [], c => by simp
  | a :: l, c => by
      simp only [List.foldl_cons, List.map_cons, List.sum_cons]
      rw [foldl_add_eq f l (c + f a)]
      ring

/-- The left-to-right accumulation in `dot_product` computes the
mathematical sum `Σ_i v1[i] * v2[i]`. -/
theorem dot_product_eq_sum {n : ℕ} (v1 v2 : Vec n) :
    dot_product v1 v2 = ∑ i, v1 i * v2 i := by
  unfold dot_product
  rw [foldl_add_eq, zero_add, Fin.sum_univ_def]

theorem dot_product_comm {n : ℕ} (v1 v2 : Vec n) :
    dot_product v1 v2 = dot_product v2 v1 := by
  simp only [dot_product_eq_sum, mul_comm]

theorem add_eq {n : ℕ} (a b : Vec n) : add a b = a + b := rfl

theorem empty_eq (n : ℕ) : empty n = 0 := rfl

theorem sub_eq {n : ℕ} (a b : Vec n) : sub a b = a - b := rfl

theorem scale_eq_smul {n : ℕ} (v : Vec n) (k : ℝ) : scale v k = k • v :=
  funext fun _ => mul_comm _ _

theorem divScalar_eq_smul {n : ℕ} (v : Vec n) (k : ℝ) : divScalar v k = k⁻¹ • v :=
  funext fun _ => div_eq_inv_mul _ _

theorem sumv_eq_sum {n : ℕ} (l : List (Vec n)) : sumv l = l.sum :=
  by rw [List.sum_eq_foldl]; rfl

theorem dot_add_left {n : ℕ} (a b c : Vec n) :
    dot_product (a + b) c = dot_product a c + dot_product b c := by
  simp only [dot_product_eq_sum, ← Finset.sum_add_distrib]
  refine Finset.sum_congr rfl fun i _ => ?_
  show (a i + b i) * c i = a i * c i + b i * c i
  ring

theorem dot_zero_left {n : ℕ} (c : Vec n) : dot_product (0 : Vec n) c = 0 := by
  simp only [dot_product_eq_sum]
  refine Finset.sum_eq_zero fun i _ => ?_
  show (0 : ℝ) * c i = 0
  ring

theorem dot_sub_left {n : ℕ} (a b c : Vec n) :
    dot_product (a - b) c = dot_product a c - dot_product b c := by
  simp only [dot_product_eq_sum, ← Finset.sum_sub_distrib]
  refine Finset.sum_congr rfl fun i _ => ?_
  show (a i - b i) * c i = a i * c i - b i * c i
  ring

theorem dot_smul_left {n : ℕ} (k : ℝ) (a c : Vec n) :
    dot_product (k • a) c = k * dot_product a c := by
  simp only [dot_product_eq_sum, Finset.mul_sum]
  refine Finset.sum_congr rfl fun i _ => ?_
  show (k * a i) * c i = k * (a i * c i)
  ring

theorem dot_list_sum_left {n : ℕ} (c : Vec n) :
    ∀ l : List (Vec n),
      dot_product l.sum c = (l.map (fun b => dot_product b c)).sum
  | [] => by simpa using dot_zero_left c
  | a :: l => by
      rw [List.sum_cons, List.map_cons, List.sum_cons, dot_add_left,
        dot_list_sum_left c l]

theorem dot_self_nonneg {n : ℕ} (v : Vec n) : 0 ≤ dot_product v v := by
  rw [dot_product_eq_sum]
  exact Finset.sum_nonneg fun i _ => mul_self_nonneg (v i)

theorem dot_self_eq_zero_iff {n : ℕ} (v : Vec n) :
    dot_product v v = 0 ↔ v = empty n := by
  rw [dot_product_eq_sum]
  constructor
  · intro h
    funext i
    have h0 := (Finset.sum_eq_zero_iff_of_nonneg
      (fun j _ => mul_self_nonneg (v j))).mp h i (Finset.mem_univ i)
    exact mul_self_eq_zero.mp h0
  · intro h
    subst h
    exact Finset.sum_eq_zero fun i _ => mul_self_eq_zero.mpr rfl

theorem dot_divScalar_divScalar {n : ℕ} (a b : Vec n) (k : ℝ) :
    dot_product (divScalar a k) (divScalar b k) = dot_product a b / (k * k) := by
  simp only [dot_product_eq_sum, divScalar, Finset.sum_div]
  refine Finset.sum_congr rfl fun i _ => ?_
  rw [div_mul_div_comm]

theorem list_map_eq_range_getD {α β : Type*} (f : α → β) (d : α) :
    ∀ l : List α, l.map f = (List.range l.length).map (fun j => f (l.getD j d))
  | [] => rfl
  | a :: l => by
      simp only [List.map_cons, List.length_cons]
      rw [List.range_succ_eq_map, List.map_cons, List.map_map,
        list_map_eq_range_getD f d l]
      exact congrArg₂ _ rfl rfl

theorem list_map_sum_eq_range {α : Type*} {M : Type*} [AddCommMonoid M]
    (g : α → M) (d : α) :
    ∀ l : List α, (l.map g).sum = ∑ j ∈ Finset.range l.length, g (l.getD j d)
  | [] => by simp
  | a :: l => by
      rw [List.map_cons, List.sum_cons, List.length_cons,
        Finset.sum_range_succ', list_map_sum_eq_range g d l]
      simp only [List.getD_cons_succ, List.getD_cons_zero]
      exact (add_comm _ _)

theorem gram_schmidt_some_inv {n : ℕ} {basis out : List (Vec n)}
    (hout : gram_schmidt basis = some out) :
    basis ≠ [] ∧ out = specList basis (basis.length - 1) := by
  have hne : basis ≠ [] := by
    intro h
    subst h
    exact Option.noConfusion hout
  refine ⟨hne, ?_⟩
  have h := gram_schmidt_eq_specList basis hne
  rw [hout] at h
  exact Option.some_inj.mp h

theorem specList_take {n : ℕ} (basis : List (Vec n)) {k k' : ℕ} (hkk : k ≤ k') :
    (specList basis k').take (k + 1) = specList basis k := by
  induction k' with
  | zero =>
      have h0 : k = 0 := Nat.le_zero.mp hkk
      subst h0
      rfl
  | succ k' ih =>
      rcases Nat.eq_or_lt_of_le hkk with h | h
      · subst h
        rw [← specList_length basis (k' + 1)]
        exact List.take_length _
      · have hk : k ≤ k' := Nat.lt_succ_iff.mp h
        simp only [specList]
        rw [List.take_append_of_le_length (by rw [specList_length]; omega), ih hk]

theorem specList_congr {n : ℕ} {basis basis' : List (Vec n)} :
    ∀ k, (∀ j, j ≤ k → basis.getD j (empty n) = basis'.getD j (empty n)) →
      specList basis k = specList basis' k
  | 0, h => by simp only [specList, h 0 (Nat.zero_le 0)]
  | k + 1, h => by
      have hprev := specList_congr k (fun j hj => h j (Nat.le_succ_of_le hj))
      simp only [specList, hprev, h (k + 1) (le_refl _)]

theorem getD_eq_of_take_eq {α : Type*} {l l' : List α} {m : ℕ}
    (h : l.take m = l'.take m) {j : ℕ} (hj : j < m) (d : α) :
    l.getD j d = l'.getD j d := by
  have h1 : (l.take m)[j]? = l[j]? := List.getElem?_take_of_lt hj
  have h2 : (l'.take m)[j]? = l'[j]? := List.getElem?_take_of_lt hj
  rw [List.getD_eq_getElem?_getD, List.getD_eq_getElem?_getD, ← h1, ← h2, h]

/-- C1: for every non-empty input `basis` of length `L`, `gram_schmidt`
produces `output[0] = normalize basis[0]` and, for every `i` from 1 to
`L - 1`, `output[i] = normalize (basis[i] - projection_sum)` where
`projection_sum` is the left-to-right `add`-fold, starting from
`empty()`, of the terms `dot_product(output[j], basis[i]) · output[j]`
for `j` from 0 to `i - 1`. -/
theorem gram_schmidt_recurrence {n : ℕ} (basis out : List (Vec n))
    (hout : gram_schmidt basis = some out) :
    out.getD 0 (empty n) = normalize (basis.getD 0 (empty n)) ∧
    ∀ i, 1 ≤ i → i < basis.length →
      out.getD i (empty n) =
        normalize (sub (basis.getD i (empty n))
          (sumv ((List.range i).map (fun j =>
            scale (out.getD j (empty n))
              (dot_product (out.getD j (empty n)) (basis.getD i (empty n))))))) := by
  obtain ⟨hne, heq⟩ := gram_schmidt_some_inv hout
  have hL : 0 < basis.length := List.length_pos.mpr hne
  constructor
  · rw [heq, specList_getD_mono basis (Nat.zero_le 0) (Nat.zero_le _) (empty n)]
    rfl
  · rintro i h1 hi
    obtain ⟨j, rfl⟩ : ∃ j, i = j + 1 := ⟨i - 1, by omega⟩
    have hstep : out.getD (j + 1) (empty n)
        = (specList basis (j + 1)).getD (j + 1) (empty n) := by
      rw [heq]
      exact specList_getD_mono basis (le_refl _) (by omega) (empty n)
    rw [hstep]
    simp only [specList]
    rw [List.getD_append_right _ _ _ _ (by rw [specList_length]), specList_length]
    simp only [Nat.sub_self, List.getD_cons_zero]
    have hmap : (specList basis j).map
          (fun b => scale b (dot_product (basis.getD (j + 1) (empty n)) b))
        = (List.range (j + 1)).map (fun m =>
            scale (out.getD m (empty n))
              (dot_product (out.getD m (empty n)) (basis.getD (j + 1) (empty n)))) := by
      rw [list_map_eq_range_getD _ (empty n), specList_length]
      refine List.map_eq_map_iff.mpr fun m hm => ?_
      have hmj : m ≤ j := Nat.lt_succ_iff.mp (List.mem_range.mp hm)
      have hgd : (specList basis j).getD m (empty n) = out.getD m (empty n) := by
        rw [heq]
        exact (specList_getD_mono basis hmj (by omega) (empty n)).symm
      rw [hgd, dot_product_comm]
    rw [hmap]

/-- Witness for C1: the recurrence applied to the concrete basis
`[[1,0],[0,1]]` in dimension 2, at indices 0 and 1. -/
theorem gram_schmidt_recurrence_witness :
    gram_schmidt wB = some (gs_iter wB 1) ∧
    (gs_iter wB 1).getD 0 (empty 2) = normalize (wB.getD 0 (empty 2)) ∧
    (gs_iter wB 1).getD 1 (empty 2) =
      normalize (sub (wB.getD 1 (empty 2))
        (sumv ((List.range 1).map (fun j =>
          scale ((gs_iter wB 1).getD j (empty 2))
            (dot_product ((gs_iter wB 1).getD j (empty 2)) (wB.getD 1 (empty 2))))))) :=
  ⟨rfl, (gram_schmidt_recurrence wB (gs_iter wB 1) rfl).1,
    (gram_schmidt_recurrence wB (gs_iter wB 1) rfl).2 1 (le_refl 1) (by decide)⟩

/-- C5 counterexample: on the empty input, `gram_schmidt` does not return
the empty sequence — the unconditional `basis[0]` access panics
(modelled as `none`). -/
theorem gram_schmidt_nil_ne_some_nil :
    gram_schmidt ([] : List (Vec 4)) ≠ some [] :=
  fun h => Option.noConfusion h

/-- C5 (amended): on an input of length 0, `gram_schmidt` fails with an
index-out-of-bounds panic on `basis[0]` (modelled as `none`) instead of
returning an empty output sequence. -/
theorem gram_schmidt_nil_eq_none (n : ℕ) :
    gram_schmidt ([] : List (Vec n)) = none := rfl

/-- C7: the in-place pass processes slots in strictly increasing index
order: just before slot `i` is computed (that is, after the loop has
processed indices `1, ..., i - 1`), slots `0..i-1` already hold their
final orthonormalized values and slots `i..L-1` still hold the original
input vectors; consequently `output[i]` depends only on input vectors
`0..=i`. -/
theorem gram_schmidt_inplace_order {n : ℕ} (basis out : List (Vec n))
    (hout : gram_schmidt basis = some out)
    (i : ℕ) (h1 : 1 ≤ i) (hi : i < basis.length) :
    gs_iter basis (i - 1) = out.take i ++ basis.drop i ∧
    (∀ (basis' out' : List (Vec n)), gram_schmidt basis' = some out' →
      i < basis'.length → basis.take (i + 1) = basis'.take (i + 1) →
      out.getD i (empty n) = out'.getD i (empty n)) := by
  obtain ⟨hne, heq⟩ := gram_schmidt_some_inv hout
  have hL : 0 < basis.length := List.length_pos.mpr hne
  constructor
  · have hiter := gs_iter_eq basis hne (i - 1) (by omega)
    have htake : out.take i = specList basis (i - 1) := by
      rw [heq]
      have hle : i - 1 ≤ basis.length - 1 := by omega
      have := specList_take basis hle
      rw [show i - 1 + 1 = i by omega] at this
      exact this
    rw [hiter, htake, show i - 1 + 1 = i by omega]
  · rintro basis' out' hout' hi' htk
    obtain ⟨hne', heq'⟩ := gram_schmidt_some_inv hout'
    have hcongr : specList basis i = specList basis' i :=
      specList_congr i (fun j hj => getD_eq_of_take_eq htk (by omega) (empty n))
    rw [heq, heq',
      specList_getD_mono basis (le_refl i) (by omega) (empty n),
      specList_getD_mono basis' (le_refl i) (by omega) (empty n),
      hcongr]

/-- Witness for C7 at the concrete bases `wB3` and `wB3x` (which share
their first two vectors), at slot `i = 1`. -/
theorem gram_schmidt_inplace_order_witness :
    gs_iter wB3 0 = (gs_iter wB3 1).take 1 ++ wB3.drop 1 ∧
    (gs_iter wB3 1).getD 1 (empty 3) = (gs_iter wB3x 2).getD 1 (empty 3) :=
  ⟨(gram_schmidt_inplace_order wB3 (gs_iter wB3 1) rfl 1 (le_refl 1) (by decide)).1,
    (gram_schmidt_inplace_order wB3 (gs_iter wB3 1) rfl 1 (le_refl 1) (by decide)).2
      wB3x (gs_iter wB3x 2) rfl (by decide) rfl⟩

theorem specPure_eq_specList {n : ℕ} (basis : List (Vec n)) :
    ∀ k, specPure basis k = specList basis k
  | 0 => rfl
  | k + 1 => by
      simp only [specPure, specList, specPure_eq_specList basis k]
      refine congrArg₂ _ rfl ?_
      refine congrArg (fun t => [normalize (sub _ (sumv t))]) ?_
      exact List.map_eq_map_iff.mpr fun b _ => by rw [dot_product_comm]

/-- C4 counterexample: the two calling conventions do not agree on every
input — on the empty sequence the pure form returns an empty sequence
while the in-place form panics on `basis[0]` (modelled as `none`). -/
theorem gram_schmidt_forms_disagree_on_nil :
    gram_schmidt_pure ([] : List (Vec 4)) = [] ∧
    gram_schmidt ([] : List (Vec 4)) ≠ some (gram_schmidt_pure ([] : List (Vec 4))) :=
  ⟨rfl, fun h => Option.noConfusion h⟩

/-- C4 (amended): both calling conventions are part of the public
contract (the pure form is modelled from the spec), and on every
non-empty input sequence the in-place form succeeds and produces exactly
the output of the pure form, component for component; on the empty input
the in-place form panics while the pure form returns the empty sequence. -/
theorem gram_schmidt_forms_agree {n : ℕ} (basis : List (Vec n)) (hne : basis ≠ []) :
    gram_schmidt basis = some (gram_schmidt_pure basis) := by
  rw [gram_schmidt_eq_specList basis hne]
  match basis, hne with
  | v :: rest, _ =>
      show some _ = some (specPure (v :: rest) ((v :: rest).length - 1))
      rw [specPure_eq_specList]

/-- Witness for C4 at the concrete basis `wB`. -/
theorem gram_schmidt_forms_agree_witness :
    gram_schmidt wB = some (gram_schmidt_pure wB) :=
  gram_schmidt_forms_agree wB (by decide)

theorem normalize_eq_smul {n : ℕ} (v : Vec n) : normalize v = (length v)⁻¹ • v :=
  divScalar_eq_smul v (length v)

theorem sum_map_list_range {M : Type*} [AddCommMonoid M] (h : ℕ → M) :
    ∀ k, ((List.range k).map h).sum = ∑ m ∈ Finset.range k, h m
  | 0 => rfl
  | k + 1 => by
      rw [List.range_succ, List.map_append, List.sum_append, Finset.sum_range_succ,
        sum_map_list_range h k]
      simp

theorem dot_sum_range_left {n : ℕ} (f : ℕ → Vec n) (c : Vec n) :
    ∀ k, dot_product (∑ m ∈ Finset.range k, f m) c
      = ∑ m ∈ Finset.range k, dot_product (f m) c
  | 0 => by simpa using dot_zero_left c
  | k + 1 => by
      rw [Finset.sum_range_succ, Finset.sum_range_succ, dot_add_left,
        dot_sum_range_left f c k]

theorem dot_normalize_self {n : ℕ} (c : Vec n) (hc : dot_product c c ≠ 0) :
    dot_product (normalize c) (normalize c) = 1 := by
  rw [show normalize c = divScalar c (length c) from rfl, dot_divScalar_divScalar]
  rw [show length c = Real.sqrt (dot_product c c) from rfl,
    Real.mul_self_sqrt (dot_self_nonneg c)]
  exact div_self hc

theorem dot_normalize_left {n : ℕ} (c x : Vec n) :
    dot_product (normalize c) x = (length c)⁻¹ * dot_product c x := by
  rw [normalize_eq_smul, dot_smul_left]

theorem gsOut_zero {n : ℕ} (basis : List (Vec n)) :
    gsOut basis 0 = normalize (basis.getD 0 (empty n)) := rfl

theorem gsOut_succ {n : ℕ} (basis : List (Vec n)) (k : ℕ) :
    gsOut basis (k + 1)
      = normalize (basis.getD (k + 1) (empty n)
          - ∑ m ∈ Finset.range (k + 1),
              dot_product (basis.getD (k + 1) (empty n)) (gsOut basis m)
                • gsOut basis m) := by
  unfold gsOut
  simp only [specList]
  rw [List.getD_append_right _ _ _ _ (by rw [specList_length]), specList_length]
  simp only [Nat.sub_self, List.getD_cons_zero]
  have hs : sumv ((specList basis k).map
        (fun b => scale b (dot_product (basis.getD (k + 1) (empty n)) b)))
      = ∑ m ∈ Finset.range (k + 1),
          dot_product (basis.getD (k + 1) (empty n)) ((specList basis m).getD m (empty n))
            • (specList basis m).getD m (empty n) := by
    rw [list_map_eq_range_getD _ (empty n), specList_length, sumv_eq_sum,
      sum_map_list_range]
    refine Finset.sum_congr rfl fun m hm => ?_
    have hmk : m ≤ k := Nat.lt_succ_iff.mp (Finset.mem_range.mp hm)
    rw [specList_getD_mono basis (le_refl m) hmk (empty n), scale_eq_smul]
  rw [hs, sub_eq]

theorem gsOut_ofFn_getD {n L : ℕ} (vv : Fin L → Vec n) {k : ℕ} (hk : k < L) :
    (List.ofFn vv).getD k (empty n) = vv ⟨k, hk⟩ := by
  rw [List.getD_eq_getElem (List.ofFn vv) (empty n) (by simpa using hk)]
  exact List.getElem_ofFn vv k (by simpa using hk)

theorem gsOut_mem_span {n L : ℕ} (vv : Fin L → Vec n) :
    ∀ k, k < L →
      gsOut (List.ofFn vv) k ∈
        Submodule.span ℝ (vv '' {m : Fin L | (m : ℕ) ≤ k}) := by
  intro k
  induction k using Nat.strong_induction_on with
  | _ k ih =>
    intro hk
    rcases k with _ | k
    · rw [gsOut_zero, gsOut_ofFn_getD vv hk, normalize_eq_smul]
      exact Submodule.smul_mem _ _
        (Submodule.subset_span (Set.mem_image_of_mem vv (Nat.le_refl 0)))
    · rw [gsOut_succ, gsOut_ofFn_getD vv hk, normalize_eq_smul]
      refine Submodule.smul_mem _ _ (Submodule.sub_mem _ ?_ ?_)
      · exact Submodule.subset_span (Set.mem_image_of_mem vv (Nat.le_refl (k + 1)))
      · refine Submodule.sum_mem _ fun m hm => ?_
        have hmk : m ≤ k := Nat.lt_succ_iff.mp (Finset.mem_range.mp hm)
        refine Submodule.smul_mem _ _ ?_
        have hsub : {m' : Fin L | (m' : ℕ) ≤ m} ⊆ {m' : Fin L | (m' : ℕ) ≤ k + 1} := by
          intro x hx
          simp only [Set.mem_setOf_eq] at hx ⊢
          omega
        exact Submodule.span_mono (Set.image_subset vv hsub) (ih m (by omega) (by omega))

theorem residual_dot_eq_zero {n : ℕ} (g : ℕ → Vec n) (a : Vec n) (k : ℕ)
    (hunit : ∀ m, m ≤ k → dot_product (g m) (g m) = 1)
    (hzero : ∀ m m', m' < m → m ≤ k → dot_product (g m) (g m') = 0)
    {m : ℕ} (hm : m ≤ k) :
    dot_product (a - ∑ m' ∈ Finset.range (k + 1), dot_product a (g m') • g m')
      (g m) = 0 := by
  rw [dot_sub_left, dot_sum_range_left]
  have hz : ∀ m' ∈ Finset.range (k + 1), m' ≠ m →
      dot_product (dot_product a (g m') • g m') (g m) = 0 := by
    intro m' hm' hne
    have hm'k : m' < k + 1 := Finset.mem_range.mp hm'
    rw [dot_smul_left]
    rcases Nat.lt_or_ge m' m with h | h
    · rw [dot_product_comm (g m') (g m), hzero m m' h hm, mul_zero]
    · rw [hzero m' m (by omega) (by omega), mul_zero]
  rw [Finset.sum_eq_single_of_mem m (Finset.mem_range.mpr (by omega)) hz,
    dot_smul_left, hunit m hm, mul_one, sub_self]

theorem gsOut_orthonormal {n L : ℕ} (vv : Fin L → Vec n)
    (hli : LinearIndependent ℝ vv) :
    ∀ k, k < L →
      dot_product (gsOut (List.ofFn vv) k) (gsOut (List.ofFn vv) k) = 1 ∧
      ∀ m, m < k →
        dot_product (gsOut (List.ofFn vv) k) (gsOut (List.ofFn vv) m) = 0 := by
  intro k
  induction k using Nat.strong_induction_on with
  | _ k ih =>
    intro hk
    rcases k with _ | k
    · refine ⟨?_, fun m hm => absurd hm (Nat.not_lt_zero m)⟩
      rw [gsOut_zero, gsOut_ofFn_getD vv hk]
      refine dot_normalize_self _ fun h0 => ?_
      have hz := (dot_self_eq_zero_iff _).mp h0
      rw [empty_eq] at hz
      exact hli.ne_zero ⟨0, hk⟩ hz
    · have hgsucc : gsOut (List.ofFn vv) (k + 1)
          = normalize (vv ⟨k + 1, hk⟩ - ∑ m ∈ Finset.range (k + 1),
              dot_product (vv ⟨k + 1, hk⟩) (gsOut (List.ofFn vv) m)
                • gsOut (List.ofFn vv) m) := by
        rw [gsOut_succ, gsOut_ofFn_getD vv hk]
      have hunit : ∀ m, m ≤ k →
          dot_product (gsOut (List.ofFn vv) m) (gsOut (List.ofFn vv) m) = 1 :=
        fun m hm => (ih m (by omega) (by omega)).1
      have hzero : ∀ m m', m' < m → m ≤ k →
          dot_product (gsOut (List.ofFn vv) m) (gsOut (List.ofFn vv) m') = 0 :=
        fun m m' h hmk => (ih m (by omega) (by omega)).2 m' h
      have hco : ∀ m, m ≤ k →
          dot_product (vv ⟨k + 1, hk⟩ - ∑ m' ∈ Finset.range (k + 1),
              dot_product (vv ⟨k + 1, hk⟩) (gsOut (List.ofFn vv) m')
                • gsOut (List.ofFn vv) m') (gsOut (List.ofFn vv) m) = 0 :=
        fun m hm => residual_dot_eq_zero (gsOut (List.ofFn vv)) (vv ⟨k + 1, hk⟩)
          k hunit hzero hm
      have hcne : vv ⟨k + 1, hk⟩ - ∑ m ∈ Finset.range (k + 1),
          dot_product (vv ⟨k + 1, hk⟩) (gsOut (List.ofFn vv) m)
            • gsOut (List.ofFn vv) m ≠ 0 := by
        intro h0
        rw [sub_eq_zero] at h0
        have hmem : vv ⟨k + 1, hk⟩ ∈
            Submodule.span ℝ (vv '' {m : Fin L | (m : ℕ) ≤ k}) := by
          rw [h0]
          refine Submodule.sum_mem _ fun m hm => Submodule.smul_mem _ _ ?_
          have hmk : m ≤ k := Nat.lt_succ_iff.mp (Finset.mem_range.mp hm)
          exact Submodule.span_mono
            (Set.image_subset vv fun x hx => le_trans hx hmk)
            (gsOut_mem_span vv m (by omega))
        have hnotmem : (⟨k + 1, hk⟩ : Fin L) ∉ {m : Fin L | (m : ℕ) ≤ k} := by
          intro hmm
          simp only [Set.mem_setOf_eq] at hmm
          omega
        exact hli.not_mem_span_image hnotmem hmem
      have hdcc : dot_product
          (vv ⟨k + 1, hk⟩ - ∑ m ∈ Finset.range (k + 1),
            dot_product (vv ⟨k + 1, hk⟩) (gsOut (List.ofFn vv) m)
              • gsOut (List.ofFn vv) m)
          (vv ⟨k + 1, hk⟩ - ∑ m ∈ Finset.range (k + 1),
            dot_product (vv ⟨k + 1, hk⟩) (gsOut (List.ofFn vv) m)
              • gsOut (List.ofFn vv) m) ≠ 0 := by
        intro h
        have hz := (dot_self_eq_zero_iff _).mp h
        rw [empty_eq] at hz
        exact hcne hz
      constructor
      · rw [hgsucc]
        exact dot_normalize_self _ hdcc
      · intro m hm
        rw [hgsucc, dot_normalize_left, hco m (Nat.lt_succ_iff.mp hm), mul_zero]

/-- C2: for every linearly independent input family of length `L`, the
output of `gram_schmidt` is orthonormal: `dot_product(output[i],
output[i])` equals 1 for every `i < L`, and `dot_product(output[i],
output[j])` equals 0 for `i ≠ j` (exact equalities in the real-arithmetic
model, hence within any floating tolerance). -/
theorem gram_schmidt_orthonormal {n L : ℕ} (vv : Fin L → Vec n) (out : List (Vec n))
    (hout : gram_schmidt (List.ofFn vv) = some out)
    (hli : LinearIndependent ℝ vv)
    (i j : ℕ) (hi : i < L) (hj : j < L) :
    dot_product (out.getD i (empty n)) (out.getD i (empty n)) = 1 ∧
    (i ≠ j → dot_product (out.getD i (empty n)) (out.getD j (empty n)) = 0) := by
  obtain ⟨hne, heq⟩ := gram_schmidt_some_inv hout
  have hlen : (List.ofFn vv).length = L := List.length_ofFn vv
  have hgd : ∀ m, m < L → out.getD m (empty n) = gsOut (List.ofFn vv) m := by
    intro m hm
    rw [heq, hlen]
    exact specList_getD_mono _ (le_refl m) (by omega) (empty n)
  rw [hgd i hi, hgd j hj]
  have hmain := gsOut_orthonormal vv hli
  refine ⟨(hmain i hi).1, fun hij => ?_⟩
  rcases Nat.lt_or_ge i j with h | h
  · rw [dot_product_comm]
    exact (hmain j hj).2 i h
  · exact (hmain i hi).2 j (by omega)

/-- Witness for C2: the one-vector basis `[[2]]` in dimension 1 is
linearly independent and the corresponding output has unit norm. -/
theorem gram_schmidt_orthonormal_witness :
    dot_product ((gs_iter (List.ofFn (fun _ : Fin 1 => (new [2] : Vec 1))) 0).getD 0 (empty 1))
      ((gs_iter (List.ofFn (fun _ : Fin 1 => (new [2] : Vec 1))) 0).getD 0 (empty 1)) = 1 := by
  have h2 : (new [2] : Vec 1) ≠ 0 := by
    intro h
    have h0 := congrFun h ⟨0, by omega⟩
    simp [new] at h0
  have hli : LinearIndependent ℝ (fun _ : Fin 1 => (new [2] : Vec 1)) :=
    linearIndependent_unique _ h2
  exact (gram_schmidt_orthonormal (fun _ : Fin 1 => (new [2] : Vec 1))
    (gs_iter (List.ofFn (fun _ : Fin 1 => (new [2] : Vec 1))) 0) rfl hli 0 0
    (by omega) (by omega)).1

/-- C8: for every vector `v`, `length v` equals
`sqrt (dot_product v v)`, is always nonnegative, and equals 0 exactly
when `v` is the zero vector (every component exactly 0). -/
theorem length_spec {n : ℕ} (v : Vec n) :
    length v = Real.sqrt (dot_product v v) ∧ 0 ≤ length v ∧
    (length v = 0 ↔ v = empty n) := by
  refine ⟨rfl, Real.sqrt_nonneg _, ?_⟩
  rw [show length v = Real.sqrt (dot_product v v) from rfl, Real.sqrt_eq_zero']
  constructor
  · intro h
    exact (dot_self_eq_zero_iff v).mp (le_antisymm h (dot_self_nonneg v))
  · intro h
    exact le_of_eq ((dot_self_eq_zero_iff v).mpr h)

/-- C9: `dot_product` computes the sum over `i` of `a[i] * b[i]`
(accumulated left-to-right from 0.0), and on the concrete vectors
`[1,2,3,6]` and `[3,4,5,7]` it equals exactly 68. -/
theorem dot_product_spec :
    (∀ (n : ℕ) (a b : Vec n), dot_product a b = ∑ i, a i * b i) ∧
    dot_product (new [1, 2, 3, 6] : Vec 4) (new [3, 4, 5, 7]) = 68 := by
  refine ⟨fun n a b => dot_product_eq_sum a b, ?_⟩
  rw [show dot_product (new [1, 2, 3, 6] : Vec 4) (new [3, 4, 5, 7])
      = (((0 + (1 : ℝ) * 3) + 2 * 4) + 3 * 5) + 6 * 7 from rfl]
  norm_num

theorem foldl_update_getD {α β : Type*} [DecidableEq α] (g : β → α → β) :
    ∀ (l : List α) (s : α → β), l.Nodup → ∀ j,
      (l.foldl (fun st i => Function.update st i (g (st i) i)) s) j
        = if j ∈ l then g (s j) j else s j
  | [], s, _, j => by simp
  | a :: l, s, hnd, j => by
      simp only [List.foldl_cons]
      rw [foldl_update_getD g l _ (List.nodup_cons.mp hnd).2 j]
      rcases Decidable.em (j ∈ l) with hj | hj
      · have hja : j ≠ a := fun h => (List.nodup_cons.mp hnd).1 (h ▸ hj)
        rw [if_pos hj, if_pos (List.mem_cons_of_mem a hj), Function.update_noteq hja]
      · rcases Decidable.em (j = a) with hja | hja
        · subst hja
          rw [if_neg hj, if_pos (List.mem_cons_self j l), Function.update_same]
        · rw [if_neg hj, if_neg (by simp [hja, hj]), Function.update_noteq hja]

/-- C10: `scale_with_dot_prod(self, v2)` overwrites every component `i`
of `self` with `self[i] * self[i] * v2[i]` (the component of `self`
squared times the matching component of `v2`, with `v2` untouched), and
despite its name it does not scale `self` by `dot_product(self, v2)`. -/
theorem scale_with_dot_prod_spec :
    (∀ (n : ℕ) (a b : Vec n) (i : Fin n),
      scale_with_dot_prod a b i = a i * a i * b i) ∧
    scale_with_dot_prod (new [1, 2, 3, 6] : Vec 4) (new [3, 4, 5, 7])
      = new [3, 16, 45, 252] ∧
    scale_with_dot_prod (new [1, 2, 3, 6] : Vec 4) (new [3, 4, 5, 7])
      ≠ scale (new [1, 2, 3, 6] : Vec 4)
          (dot_product (new [1, 2, 3, 6] : Vec 4) (new [3, 4, 5, 7])) := by
  have hgen : ∀ (n : ℕ) (a b : Vec n) (i : Fin n),
      scale_with_dot_prod a b i = a i * a i * b i := by
    intro n a b i
    have h := foldl_update_getD (fun x j => x * x * b j) (List.finRange n) a
      (List.nodup_finRange n) i
    rw [if_pos (List.mem_finRange i)] at h
    exact h
  refine ⟨hgen, ?_, ?_⟩
  · funext i
    rcases i with ⟨iv, hv⟩
    interval_cases iv
    · show (1 : ℝ) * 1 * 3 = 3
      norm_num
    · show (2 : ℝ) * 2 * 4 = 16
      norm_num
    · show (3 : ℝ) * 3 * 5 = 45
      norm_num
    · show (6 : ℝ) * 6 * 7 = 252
      norm_num
  · intro h
    have h0 := congrFun h (0 : Fin 4)
    rw [show scale_with_dot_prod (new [1, 2, 3, 6] : Vec 4) (new [3, 4, 5, 7]) (0 : Fin 4)
        = (1 : ℝ) * 1 * 3 from rfl,
      show scale (new [1, 2, 3, 6] : Vec 4)
          (dot_product (new [1, 2, 3, 6] : Vec 4) (new [3, 4, 5, 7])) (0 : Fin 4)
        = (1 : ℝ) * ((((0 + (1 : ℝ) * 3) + 2 * 4) + 3 * 5) + 6 * 7) from rfl] at h0
    norm_num at h0

theorem vec4_eq (a b : Vec 4) (h0 : a 0 = b 0) (h1 : a 1 = b 1)
    (h2 : a 2 = b 2) (h3 : a 3 = b 3) : a = b := by
  funext i
  rcases i with ⟨iv, hv⟩
  interval_cases iv
  · exact h0
  · exact h1
  · exact h2
  · exact h3

theorem normalize_vec4 (v w : Vec 4) (d r : ℝ) (hd : dot_product v v = d)
    (hr : Real.sqrt d = r) (h0 : v 0 / r = w 0) (h1 : v 1 / r = w 1)
    (h2 : v 2 / r = w 2) (h3 : v 3 / r = w 3) : normalize v = w := by
  have hlen : length v = r := by
    rw [show length v = Real.sqrt (dot_product v v) from rfl, hd, hr]
  refine vec4_eq _ _ ?_ ?_ ?_ ?_
  · show v 0 / length v = w 0
    rw [hlen]
    exact h0
  · show v 1 / length v = w 1
    rw [hlen]
    exact h1
  · show v 2 / length v = w 2
    rw [hlen]
    exact h2
  · show v 3 / length v = w 3
    rw [hlen]
    exact h3

/-- C3: on the concrete input `[[1,1,1,1],[0,1,0,1],[0,0,1,1],[0,0,0,1]]`
of the repository's `basic_test`, `gram_schmidt` produces exactly
`[[0.5,0.5,0.5,0.5],[-0.5,0.5,-0.5,0.5],[-0.5,-0.5,0.5,0.5],[0.5,-0.5,-0.5,0.5]]`
(exact componentwise equality; every intermediate value is a dyadic
rational, so the f64 computation is exact as well). -/
theorem gram_schmidt_basic_test :
    gram_schmidt [t0, t1, t2, t3] = some [u0, u1, u2, u3] := by
  have hn0 : normalize t0 = u0 := by
    refine normalize_vec4 t0 u0 4 2 ?_ ?_ ?_ ?_ ?_ ?_
    · rw [show dot_product t0 t0
          = (((0 + (1 : ℝ) * 1) + 1 * 1) + 1 * 1) + 1 * 1 from rfl]
      norm_num
    · rw [show (4 : ℝ) = 2 ^ 2 by norm_num]
      exact Real.sqrt_sq (by norm_num)
    · show (1 : ℝ) / 2 = 0.5
      norm_num
    · show (1 : ℝ) / 2 = 0.5
      norm_num
    · show (1 : ℝ) / 2 = 0.5
      norm_num
    · show (1 : ℝ) / 2 = 0.5
      norm_num
  have h_it0 : gs_iter [t0, t1, t2, t3] 0 = [u0, t1, t2, t3] := by
    show [normalize t0, t1, t2, t3] = [u0, t1, t2, t3]
    rw [hn0]
  have hd10 : dot_product t1 u0 = 1 := by
    rw [show dot_product t1 u0
        = (((0 + (0 : ℝ) * 0.5) + 1 * 0.5) + 0 * 0.5) + 1 * 0.5 from rfl]
    norm_num
  have hc1 : sub t1 (sumv [scale u0 (1 : ℝ)]) = new [-0.5, 0.5, -0.5, 0.5] := by
    refine vec4_eq _ _ ?_ ?_ ?_ ?_
    · show (0 : ℝ) - (0 + 0.5 * 1) = -0.5
      norm_num
    · show (1 : ℝ) - (0 + 0.5 * 1) = 0.5
      norm_num
    · show (0 : ℝ) - (0 + 0.5 * 1) = -0.5
      norm_num
    · show (1 : ℝ) - (0 + 0.5 * 1) = 0.5
      norm_num
  have hn1 : normalize (new [-0.5, 0.5, -0.5, 0.5] : Vec 4) = u1 := by
    refine normalize_vec4 _ u1 1 1 ?_ Real.sqrt_one ?_ ?_ ?_ ?_
    · rw [show dot_product (new [-0.5, 0.5, -0.5, 0.5] : Vec 4)
            (new [-0.5, 0.5, -0.5, 0.5])
          = (((0 + (-0.5 : ℝ) * (-0.5)) + 0.5 * 0.5) + (-0.5) * (-0.5)) + 0.5 * 0.5
          from rfl]
      norm_num
    · show (-0.5 : ℝ) / 1 = -0.5
      norm_num
    · show (0.5 : ℝ) / 1 = 0.5
      norm_num
    · show (-0.5 : ℝ) / 1 = -0.5
      norm_num
    · show (0.5 : ℝ) / 1 = 0.5
      norm_num
  have h_it1 : gs_iter [t0, t1, t2, t3] 1 = [u0, u1, t2, t3] := by
    show gs_step (gs_iter [t0, t1, t2, t3] 0) 1 = _
    rw [h_it0]
    show [u0, normalize (sub t1 (sumv [scale u0 (dot_product t1 u0)])), t2, t3]
      = [u0, u1, t2, t3]
    rw [hd10, hc1, hn1]
  have hd20 : dot_product t2 u0 = 1 := by
    rw [show dot_product t2 u0
        = (((0 + (0 : ℝ) * 0.5) + 0 * 0.5) + 1 * 0.5) + 1 * 0.5 from rfl]
    norm_num
  have hd21 : dot_product t2 u1 = 0 := by
    rw [show dot_product t2 u1
        = (((0 + (0 : ℝ) * (-0.5)) + 0 * 0.5) + 1 * (-0.5)) + 1 * 0.5 from rfl]
    norm_num
  have hc2 : sub t2 (sumv [scale u0 (1 : ℝ), scale u1 (0 : ℝ)])
      = new [-0.5, -0.5, 0.5, 0.5] := by
    refine vec4_eq _ _ ?_ ?_ ?_ ?_
    · show (0 : ℝ) - ((0 + 0.5 * 1) + (-0.5) * 0) = -0.5
      norm_num
    · show (0 : ℝ) - ((0 + 0.5 * 1) + 0.5 * 0) = -0.5
      norm_num
    · show (1 : ℝ) - ((0 + 0.5 * 1) + (-0.5) * 0) = 0.5
      norm_num
    · show (1 : ℝ) - ((0 + 0.5 * 1) + 0.5 * 0) = 0.5
      norm_num
  have hn2 : normalize (new [-0.5, -0.5, 0.5, 0.5] : Vec 4) = u2 := by
    refine normalize_vec4 _ u2 1 1 ?_ Real.sqrt_one ?_ ?_ ?_ ?_
    · rw [show dot_product (new [-0.5, -0.5, 0.5, 0.5] : Vec 4)
            (new [-0.5, -0.5, 0.5, 0.5])
          = (((0 + (-0.5 : ℝ) * (-0.5)) + (-0.5) * (-0.5)) + 0.5 * 0.5) + 0.5 * 0.5
          from rfl]
      norm_num
    · show (-0.5 : ℝ) / 1 = -0.5
      norm_num
    · show (-0.5 : ℝ) / 1 = -0.5
      norm_num
    · show (0.5 : ℝ) / 1 = 0.5
      norm_num
    · show (0.5 : ℝ) / 1 = 0.5
      norm_num
  have h_it2 : gs_iter [t0, t1, t2, t3] 2 = [u0, u1, u2, t3] := by
    show gs_step (gs_iter [t0, t1, t2, t3] 1) 2 = _
    rw [h_it1]
    show [u0, u1,
        normalize (sub t2 (sumv [scale u0 (dot_product t2 u0),
          scale u1 (dot_product t2 u1)])), t3]
      = [u0, u1, u2, t3]
    rw [hd20, hd21, hc2, hn2]
  have hd30 : dot_product t3 u0 = 0.5 := by
    rw [show dot_product t3 u0
        = (((0 + (0 : ℝ) * 0.5) + 0 * 0.5) + 0 * 0.5) + 1 * 0.5 from rfl]
    norm_num
  have hd31 : dot_product t3 u1 = 0.5 := by
    rw [show dot_product t3 u1
        = (((0 + (0 : ℝ) * (-0.5)) + 0 * 0.5) + 0 * (-0.5)) + 1 * 0.5 from rfl]
    norm_num
  have hd32 : dot_product t3 u2 = 0.5 := by
    rw [show dot_product t3 u2
        = (((0 + (0 : ℝ) * (-0.5)) + 0 * (-0.5)) + 0 * 0.5) + 1 * 0.5 from rfl]
    norm_num
  have hc3 : sub t3 (sumv [scale u0 (0.5 : ℝ), scale u1 (0.5 : ℝ),
      scale u2 (0.5 : ℝ)]) = new [0.25, -0.25, -0.25, 0.25] := by
    refine vec4_eq _ _ ?_ ?_ ?_ ?_
    · show (0 : ℝ) - (((0 + 0.5 * 0.5) + (-0.5) * 0.5) + (-0.5) * 0.5) = 0.25
      norm_num
    · show (0 : ℝ) - (((0 + 0.5 * 0.5) + 0.5 * 0.5) + (-0.5) * 0.5) = -0.25
      norm_num
    · show (0 : ℝ) - (((0 + 0.5 * 0.5) + (-0.5) * 0.5) + 0.5 * 0.5) = -0.25
      norm_num
    · show (1 : ℝ) - (((0 + 0.5 * 0.5) + 0.5 * 0.5) + 0.5 * 0.5) = 0.25
      norm_num
  have hn3 : normalize (new [0.25, -0.25, -0.25, 0.25] : Vec 4) = u3 := by
    refine normalize_vec4 _ u3 0.25 0.5 ?_ ?_ ?_ ?_ ?_ ?_
    · rw [show dot_product (new [0.25, -0.25, -0.25, 0.25] : Vec 4)
            (new [0.25, -0.25, -0.25, 0.25])
          = (((0 + (0.25 : ℝ) * 0.25) + (-0.25) * (-0.25)) + (-0.25) * (-0.25))
              + 0.25 * 0.25 from rfl]
      norm_num
    · rw [show (0.25 : ℝ) = 0.5 ^ 2 by norm_num]
      exact Real.sqrt_sq (by norm_num)
    · show (0.25 : ℝ) / 0.5 = 0.5
      norm_num
    · show (-0.25 : ℝ) / 0.5 = -0.5
      norm_num
    · show (-0.25 : ℝ) / 0.5 = -0.5
      norm_num
    · show (0.25 : ℝ) / 0.5 = 0.5
      norm_num
  have h_it3 : gs_iter [t0, t1, t2, t3] 3 = [u0, u1, u2, u3] := by
    show gs_step (gs_iter [t0, t1, t2, t3] 2) 3 = _
    rw [h_it2]
    show [u0, u1, u2,
        normalize (sub t3 (sumv [scale u0 (dot_product t3 u0),
          scale u1 (dot_product t3 u1), scale u2 (dot_product t3 u2)]))]
      = [u0, u1, u2, u3]
    rw [hd30, hd31, hd32, hc3, hn3]
  show some (gs_iter [t0, t1, t2, t3] 3) = some [u0, u1, u2, u3]
  rw [h_it3]

/-- Supporting fact for the duplicate-input edge case (C6 is about IEEE
NaN/Inf propagation, which the real-valued model cannot express): when
`basis[1] == basis[0]` and the vector is nonzero, the pre-normalization
residual at slot 1 is exactly the zero vector, so `normalize` divides
every component by `length 0 = 0` — the division-by-(near-)zero event the
spec describes. In IEEE-754 arithmetic that division yields NaN; in the
real-valued model `x / 0 = 0`. -/
theorem gram_schmidt_duplicate_divzero {n : ℕ} (v : Vec n)
    (hv : dot_product v v ≠ 0) :
    gram_schmidt [v, v] = some [normalize v, normalize (0 : Vec n)] ∧
    length (0 : Vec n) = 0 := by
  have hlpos : 0 < length v :=
    Real.sqrt_pos.mpr (lt_of_le_of_ne (dot_self_nonneg v) (Ne.symm hv))
  have hlen2 : length v * length v = dot_product v v :=
    Real.mul_self_sqrt (dot_self_nonneg v)
  have hS : sumv [scale (normalize v) (dot_product v (normalize v))] = v := by
    funext i
    show 0 + (v i / length v) * dot_product v (normalize v) = v i
    rw [dot_product_comm v (normalize v), dot_normalize_left, zero_add, ← hlen2,
      inv_mul_cancel_left₀ (ne_of_gt hlpos),
      div_mul_cancel₀ (v i) (ne_of_gt hlpos)]
  have hsub : sub v v = (0 : Vec n) := funext fun i => sub_self (v i)
  constructor
  · show some (gs_iter [v, v] 1) = _
    show some [normalize v,
      normalize (sub v (sumv [scale (normalize v) (dot_product v (normalize v))]))] = _
    rw [hS, hsub]
  · show Real.sqrt (dot_product (0 : Vec n) (0 : Vec n)) = 0
    rw [dot_zero_left, Real.sqrt_zero]

end

end GS
